import Mathlib

/-!
# Verification of the IndexedDB-on-SQLite storage engine

Shallow embedding of the core of `idb-oneshot` (key codec, key validation,
key ranges, auto-increment key generator, add/put record pipeline,
savepoint-based transaction abort, transaction scheduler, index cursor
iteration), together with proofs and refutations of the specified laws.

Conventions of the embedding:
* JavaScript numbers are IEEE-754 binary64 values, represented by their
  64-bit pattern as a `Nat < 2^64` (big-endian integer reading of the bits).
  The JS relations `===` and `<` on non-NaN doubles are embedded by the
  standard sign/magnitude characterisation of the binary64 order: for two
  non-negative (sign bit 0) patterns the value order coincides with the
  pattern order, for two negative patterns it is the reverse pattern order,
  every negative value is below every positive one, and `+0`/`-0`
  (patterns `0` and `2^63`) are equal.
* Byte buffers (`Buffer`/`Uint8Array`) are `List Nat` with entries `< 256`;
  UTF-16 strings are their lists of code units (`Nat < 2^16`).
* Fallible operations return `Option`/`Except`; a thrown `DOMException` is
  modelled by its error name.
-/

/-- Byte sequences (each entry is one byte, `< 256`). -/
abbrev Bytes := List Nat

/-- DOMException names used by the engine (src/src/errors.ts taxonomy). -/
inductive DOMErr where
  | DataError
  | ConstraintError
  | ReadOnlyError
  | AbortError
  | InvalidStateError
  | TransactionInactiveError
  deriving DecidableEq, Repr

/-! ## IEEE-754 binary64 bit patterns -/

/-- The sign bit of a binary64 pattern, `0x8000000000000000`. -/
def SIGN_BIT : Nat := 9223372036854775808

/-- The bit pattern of `-0`. -/
def NEG_ZERO_BITS : Nat := SIGN_BIT

/-- The bit pattern of `+Infinity` (`0x7FF0000000000000`). -/
def POS_INF_BITS : Nat := 9218868437227405312

/-- The bit pattern of `-Infinity` (`0xFFF0000000000000`). -/
def NEG_INF_BITS : Nat := 18442240474082181120

/-- Exponent field (bits 52..62) of a binary64 pattern. -/
def expField (bits : Nat) : Nat := bits / 4503599627370496 % 2048

/-- Mantissa field (bits 0..51) of a binary64 pattern. -/
def mantissaField (bits : Nat) : Nat := bits % 4503599627370496

/-- `Number.isNaN` on a binary64 pattern: exponent all ones, mantissa nonzero. -/
def isNaNBits (bits : Nat) : Bool := expField bits == 2047 && mantissaField bits != 0

/-- `±Infinity` test on a binary64 pattern: exponent all ones, mantissa zero. -/
def isInfBits (bits : Nat) : Bool := expField bits == 2047 && mantissaField bits == 0

/-- `Number.isFinite` on a binary64 pattern. -/
def isFiniteBits (bits : Nat) : Bool := expField bits != 2047

/-- Embedding of JS `===` on two non-NaN doubles given by their bit patterns:
equal patterns, or the `+0`/`-0` pair. -/
def jsEqNum (a b : Nat) : Bool :=
  a == b || (a == 0 && b == NEG_ZERO_BITS) || (a == NEG_ZERO_BITS && b == 0)

/-- Embedding of JS `<` on two non-NaN doubles given by their bit patterns
(sign/magnitude characterisation of the binary64 value order). -/
def jsLtNum (a b : Nat) : Bool :=
  if SIGN_BIT ≤ a then
    if SIGN_BIT ≤ b then b < a
    else !(a == NEG_ZERO_BITS && b == 0)
  else
    if SIGN_BIT ≤ b then false
    else a < b

/-- The number/date comparison of `compareKeys` (src/unnamed/part_010:105-117):
`0` when JS `===` holds, else `-1`/`1` by JS `<`. -/
def jsCompareNum (a b : Nat) : Int :=
  if jsEqNum a b then 0 else if jsLtNum a b then -1 else 1

/-! ## Keys -/

/-- A (structurally) valid IndexedDB key as stored by the engine.
Numbers and date time values carry their binary64 bit pattern;
strings carry UTF-16 code units; binary keys carry their bytes. -/
inductive Key where
  | num (bits : Nat)
  | date (bits : Nat)
  | str (units : List Nat)
  | bin (bytes : List Nat)
  | arr (elems : List Key)

/-- Type rank used for cross-type ordering
(`keyType`, src/unnamed/part_010:16-23): number < date < string < binary < array. -/
def keyTypeRank : Key → Nat
  | .num _ => 1
  | .date _ => 2
  | .str _ => 3
  | .bin _ => 4
  | .arr _ => 5

/-- Shared lexicographic comparison on lists of naturals with
shorter-prefix-less-than.  This is simultaneously the JS string relational
comparison on code units, the byte-by-byte loop of `compareKeys` for binary
keys, and `Buffer.compare` (memcmp) on byte buffers. -/
def lexCompareNat : List Nat → List Nat → Int
  | [], [] => 0
  | [], _ :: _ => -1
  | _ :: _, [] => 1
  | a :: as, b :: bs => if a < b then -1 else if b < a then 1 else lexCompareNat as bs

mutual

/-- `compareKeys` (src/unnamed/part_010:96-146).  The source first compares
the type ranks and then switches on the (equal) type; here the two steps are
fused into one match — ranks are equal exactly when the constructors agree. -/
def compareKeys : Key → Key → Int
  | .num a, .num b => jsCompareNum a b
  | .date a, .date b => jsCompareNum a b
  | .str a, .str b => lexCompareNat a b
  | .bin a, .bin b => lexCompareNat a b
  | .arr a, .arr b => compareKeyLists a b
  | a, b => if keyTypeRank a < keyTypeRank b then -1 else 1

/-- The element-wise array comparison loop of `compareKeys`
(src/unnamed/part_010:135-145): first nonzero element comparison wins,
then shorter-prefix-less-than. -/
def compareKeyLists : List Key → List Key → Int
  | [], [] => 0
  | [], _ :: _ => -1
  | _ :: _, [] => 1
  | x :: xs, y :: ys =>
    let c := compareKeys x y
    if c ≠ 0 then c else compareKeyLists xs ys

end

/-! ## Binary key encoding (src/unnamed/part_010:147-241) -/

/-- Type tag bytes of the binary encoding. -/
def TAG_NUMBER : Nat := 16
/-- Date tag byte `0x20`. -/
def TAG_DATE : Nat := 32
/-- String tag byte `0x30`. -/
def TAG_STRING : Nat := 48
/-- Binary tag byte `0x40`. -/
def TAG_BINARY : Nat := 64
/-- Array tag byte `0x50`. -/
def TAG_ARRAY : Nat := 80
/-- Array terminator byte `0x00`. -/
def TAG_ARRAY_TERMINATOR : Nat := 0

/-- The 8 big-endian bytes of a 64-bit pattern (DataView `setFloat64(0, v, false)`
on the value whose bits are `bits`). -/
def bytesOfDouble (bits : Nat) : Bytes :=
  [bits / 72057594037927936 % 256,
   bits / 281474976710656 % 256,
   bits / 1099511627776 % 256,
   bits / 4294967296 % 256,
   bits / 16777216 % 256,
   bits / 65536 % 256,
   bits / 256 % 256,
   bits % 256]

/-- `encodeDouble` (src/unnamed/part_010:159-178): big-endian IEEE bytes,
then flip all bits when negative (high bit of byte 0 set), else flip the
sign bit only. -/
def encodeDouble (bits : Nat) : Bytes :=
  match bytesOfDouble bits with
  | [] => []
  | b0 :: rest =>
    if 128 ≤ b0 then (b0 :: rest).map (fun b => b ^^^ 255)
    else (b0 ^^^ 128) :: rest

/-- The string body encoder of `encodeKeyInto` (src/unnamed/part_010:203-219):
each code unit as big-endian byte pair, `U+0000` escaped to `00 01`. -/
def escapeStringBytes : List Nat → Bytes
  | [] => []
  | c :: cs => (if c == 0 then [0, 1] else [c / 256 % 256, c % 256]) ++ escapeStringBytes cs

/-- The binary body encoder of `encodeKeyInto` (src/unnamed/part_010:220-234):
raw bytes with `0x00` escaped to `00 01`. -/
def escapeBinaryBytes : List Nat → Bytes
  | [] => []
  | b :: bs => (if b == 0 then [0, 1] else [b]) ++ escapeBinaryBytes bs

mutual

/-- `encodeKey`/`encodeKeyInto` (src/unnamed/part_010:181-241): one tag byte,
then the type-specific body; strings and binary end with a `00 00` terminator,
arrays concatenate the encodings of their elements and end with `0x00`. -/
def encodeKey : Key → Bytes
  | .num bits => TAG_NUMBER :: encodeDouble bits
  | .date bits => TAG_DATE :: encodeDouble bits
  | .str units => TAG_STRING :: (escapeStringBytes units ++ [0, 0])
  | .bin bytes => TAG_BINARY :: (escapeBinaryBytes bytes ++ [0, 0])
  | .arr elems => TAG_ARRAY :: (encodeKeyList elems ++ [TAG_ARRAY_TERMINATOR])

/-- Concatenated encodings of the array elements (the loop of
`encodeKeyInto`, src/unnamed/part_010:236-239). -/
def encodeKeyList : List Key → Bytes
  | [] => []
  | k :: ks => encodeKey k ++ encodeKeyList ks

end

/-! ## Binary key decoding (src/unnamed/part_010:243-326) -/

/-- Inverse of the `encodeDouble` bit transform (src/unnamed/part_010:256-261):
if the (encoded) high bit is set the original was non-negative, clear it;
otherwise the original was negative, flip all bits back. -/
def undoDoubleTransform : Bytes → Bytes
  | [] => []
  | b0 :: rest =>
    if 128 ≤ b0 then (b0 ^^^ 128) :: rest
    else (b0 :: rest).map (fun b => b ^^^ 255)

/-- Big-endian integer reading of bytes (DataView `getFloat64(0, false)`
recovering the bit pattern). -/
def natOfBytesBE (bs : Bytes) : Nat := bs.foldl (fun acc b => acc * 256 + b) 0

/-- `bytes.subarray(offset, offset + 8)` copied into a zero-initialised
8-byte buffer (src/unnamed/part_010:255): zero-padded on a short read. -/
def take8Padded (bs : Bytes) : Bytes := bs.take 8 ++ List.replicate (8 - bs.length) 0

/-- The string decoding loop of `decodeKeyAt` (src/unnamed/part_010:270-290):
scan byte pairs until the `00 00` terminator, unescaping `00 01` to `U+0000`;
the loop stops without consuming when fewer than two bytes remain. -/
def decodeStringUnits : Bytes → List Nat × Bytes
  | 0 :: 0 :: rest => ([], rest)
  | 0 :: 1 :: rest =>
    let (cs, r) := decodeStringUnits rest
    (0 :: cs, r)
  | a :: b :: rest =>
    let (cs, r) := decodeStringUnits rest
    ((a * 256 + b) :: cs, r)
  | bs => ([], bs)

/-- The binary decoding loop of `decodeKeyAt` (src/unnamed/part_010:292-311):
scan bytes until the `00 00` terminator, unescaping `00 01` to `0x00`;
a lone trailing byte is consumed as data. -/
def decodeBinaryBytes : Bytes → List Nat × Bytes
  | 0 :: 0 :: rest => ([], rest)
  | 0 :: 1 :: rest =>
    let (ds, r) := decodeBinaryBytes rest
    (0 :: ds, r)
  | b :: rest =>
    let (ds, r) := decodeBinaryBytes rest
    (b :: ds, r)
  | [] => ([], [])

mutual

/-- `decodeKeyAt` (src/unnamed/part_010:250-326): read the tag byte and the
type-specific body, returning the key and the unconsumed suffix (the source
returns `nextOffset`; here the suffix plays that role).  An unknown tag throws
in the source and yields `none` here.  `fuel` bounds the recursion depth of
nested arrays; the source recursion terminates because every recursive call
consumes at least the tag byte. -/
def decodeKeyAt : Nat → Bytes → Option (Key × Bytes)
  | 0, _ => none
  | _ + 1, [] => none
  | fuel + 1, tag :: rest =>
    if tag = TAG_NUMBER then
      some (.num (natOfBytesBE (undoDoubleTransform (take8Padded rest))), rest.drop 8)
    else if tag = TAG_DATE then
      some (.date (natOfBytesBE (undoDoubleTransform (take8Padded rest))), rest.drop 8)
    else if tag = TAG_STRING then
      let (us, r) := decodeStringUnits rest
      some (.str us, r)
    else if tag = TAG_BINARY then
      let (ds, r) := decodeBinaryBytes rest
      some (.bin ds, r)
    else if tag = TAG_ARRAY then
      (decodeKeyListAt fuel rest).map (fun p => (.arr p.1, p.2))
    else none

/-- The array element loop of `decodeKeyAt` (src/unnamed/part_010:313-322):
decode elements until the terminator byte `0x00` (skipped) or the end of the
buffer. -/
def decodeKeyListAt : Nat → Bytes → Option (List Key × Bytes)
  | 0, _ => none
  | _ + 1, [] => some ([], [])
  | fuel + 1, b :: rest =>
    if b = TAG_ARRAY_TERMINATOR then some ([], rest)
    else
      match decodeKeyAt fuel (b :: rest) with
      | none => none
      | some (k, r) =>
        match decodeKeyListAt fuel r with
        | none => none
        | some (ks, r2) => some (k :: ks, r2)

end

/-- `decodeKey` (src/unnamed/part_010:244-248): decode one key from the start
of the buffer.  The fuel `length + 1` dominates the recursion depth of any
parse (each nested call consumes at least one byte). -/
def decodeKey (bs : Bytes) : Option Key := (decodeKeyAt (bs.length + 1) bs).map (fun p => p.1)

/-! ## Key validation (src/unnamed/part_010:30-89) -/

/-- A JavaScript value as far as key conversion observes it.  Numbers and
date time values carry their binary64 bit pattern; `ArrayBuffer`s (and
typed-array views, already normalised to their byte range) carry bytes;
`other` stands for every value of a non-key type (symbol, function, plain
object, `undefined`, `null`, boolean).  Sparse, proxy-wrapped and
self-referential arrays have no counterpart in this inductive value space;
the claims settled here do not concern them. -/
inductive JSVal where
  | num (bits : Nat)
  | date (timeBits : Nat)
  | str (units : List Nat)
  | buf (bytes : List Nat)
  | arr (elems : List JSVal)
  | other

mutual

/-- `valueToKey` (src/unnamed/part_010:30-75): a number is a key unless NaN;
a date is a key unless its time value is NaN or non-finite; strings and
buffers are keys; an array is a key when every element is; everything else
is rejected. -/
def valueToKey : JSVal → Option Key
  | .num bits => if isNaNBits bits then none else some (.num bits)
  | .date t => if isNaNBits t || !(isFiniteBits t) then none else some (.date t)
  | .str units => some (.str units)
  | .buf bytes => some (.bin bytes)
  | .arr elems =>
    match valueToKeyList elems with
    | none => none
    | some ks => some (.arr ks)
  | .other => none

/-- The element loop of `valueToKey` for arrays (src/unnamed/part_010:62-70):
convert elements in order, failing on the first invalid one. -/
def valueToKeyList : List JSVal → Option (List Key)
  | [] => some []
  | v :: vs =>
    match valueToKey v with
    | none => none
    | some k =>
      match valueToKeyList vs with
      | none => none
      | some ks => some (k :: ks)

end

/-- `valueToKeyOrThrow` (src/unnamed/part_010:80-89): throw `DataError`
when `valueToKey` rejects. -/
def valueToKeyOrThrow (v : JSVal) : Except DOMErr Key :=
  match valueToKey v with
  | none => .error .DataError
  | some k => .ok k

/-! ## IDBKeyRange (src/src/IDBKeyRange.ts) -/

/-- An `IDBKeyRange`: optional converted bounds plus openness flags. -/
structure KeyRange where
  lower : Option Key
  upper : Option Key
  lowerOpen : Bool
  upperOpen : Bool

/-- `IDBKeyRange.only` (src/src/IDBKeyRange.ts:51-59). -/
def KeyRange.only (v : JSVal) : Except DOMErr KeyRange :=
  match valueToKeyOrThrow v with
  | .error e => .error e
  | .ok k => .ok ⟨some k, some k, false, false⟩

/-- `IDBKeyRange.lowerBound` (src/src/IDBKeyRange.ts:61-69). -/
def KeyRange.lowerBound (v : JSVal) (opn : Bool) : Except DOMErr KeyRange :=
  match valueToKeyOrThrow v with
  | .error e => .error e
  | .ok k => .ok ⟨some k, none, opn, true⟩

/-- `IDBKeyRange.upperBound` (src/src/IDBKeyRange.ts:71-79). -/
def KeyRange.upperBound (v : JSVal) (opn : Bool) : Except DOMErr KeyRange :=
  match valueToKeyOrThrow v with
  | .error e => .error e
  | .ok k => .ok ⟨none, some k, true, opn⟩

/-- `IDBKeyRange.bound` (src/src/IDBKeyRange.ts:81-106): convert both bounds,
throw `DataError` when the lower compares greater than the upper. -/
def KeyRange.bound (lo hi : JSVal) (loOpen hiOpen : Bool) : Except DOMErr KeyRange :=
  match valueToKeyOrThrow lo with
  | .error e => .error e
  | .ok kl =>
    match valueToKeyOrThrow hi with
    | .error e => .error e
    | .ok ku =>
      if compareKeys kl ku > 0 then .error .DataError
      else .ok ⟨some kl, some ku, loOpen, hiOpen⟩

/-! ## Auto-increment key generator (src/src/IDBObjectStore.ts:1819-1868) -/

/-- A JS number as the key generator logic observes it: NaN, one of the two
infinities, or a finite double.  Every finite double is a rational, and
`Math.floor`, the order and `Math.min` on finite doubles agree with the
rational operations (the generator bound 2^53 and all stored generator
values are exactly representable), so the finite case carries a rational. -/
inductive JSNum where
  | nan
  | posInf
  | negInf
  | fin (q : ℚ)

/-- `IDBObjectStore.MAX_KEY_GENERATOR_VALUE` (2^53). -/
def MAX_KEY_GENERATOR_VALUE : Int := 9007199254740992

/-- `IDBObjectStore._nextKey` (src/src/IDBObjectStore.ts:1822-1835): fail at
the 2^53 ceiling, otherwise return the current value plus one without
updating it. -/
def nextKey (currentKey : Int) : Option Int :=
  if currentKey ≥ MAX_KEY_GENERATOR_VALUE then none else some (currentKey + 1)

/-- `IDBObjectStore._maybeUpdateKeyGenerator` (src/src/IDBObjectStore.ts:1837-1868)
as a function from the stored `currentKey` to the new stored value:
no-op unless auto-increment; NaN does nothing; `+Infinity` pins the generator
to the 2^53 ceiling; `-Infinity` does nothing; a finite key is floored, and
when the floor is at least 1 and at least the current value the generator
becomes its floor capped at 2^53. -/
def maybeUpdateKeyGenerator (autoIncrement : Bool) (currentKey : Int) (key : JSNum) : Int :=
  if !autoIncrement then currentKey
  else
    match key with
    | .nan => currentKey
    | .posInf => MAX_KEY_GENERATOR_VALUE
    | .negInf => currentKey
    | .fin q =>
      let floorKey : Int := ⌊q⌋
      if floorKey < 1 then currentKey
      else if floorKey ≥ currentKey then min floorKey MAX_KEY_GENERATOR_VALUE
      else currentKey

/-! ## Backend record and index-entry tables (src/src/IDBFactory.ts)

One object store of one database: the `records` rows owned by the store
(encoded primary key BLOB → serialized value) and the `index_entries` rows
of its indexes (`(index_id, key BLOB, primary_key BLOB)`, primary key over
all three columns).  Serialized values are an opaque type `α` (the spec
treats `serialize`/`deserialize` as black boxes). -/

/-- `getRecord` (src/src/IDBFactory.ts:503-509): value of the row with the
given encoded key, if any. -/
def getRecord {α : Type} (recs : List (Bytes × α)) (k : Bytes) : Option α :=
  (recs.find? (fun e => e.1 == k)).map (fun e => e.2)

/-- `putRecord` (src/src/IDBFactory.ts:494-500), `INSERT OR REPLACE` keyed on
the encoded key: replace the existing row or append a new one. -/
def putRecord {α : Type} (recs : List (Bytes × α)) (k : Bytes) (v : α) : List (Bytes × α) :=
  if recs.any (fun e => e.1 == k) then
    recs.map (fun e => if e.1 == k then (k, v) else e)
  else recs ++ [(k, v)]

/-- `deleteRecord` (src/src/IDBFactory.ts:522-528): drop the row with the
given encoded key. -/
def deleteRecord {α : Type} (recs : List (Bytes × α)) (k : Bytes) : List (Bytes × α) :=
  recs.filter (fun e => !(e.1 == k))

/-- `clearRecords` (src/src/IDBFactory.ts:558-561): drop every row of the
store. -/
def clearRecords {α : Type} (_ : List (Bytes × α)) : List (Bytes × α) := []

/-- `countRecords` without a range (src/src/IDBFactory.ts:541-548). -/
def countRecords {α : Type} (recs : List (Bytes × α)) : Nat := recs.length

/-- `checkUniqueIndexConstraint` (src/src/IDBFactory.ts:564-576): is there an
entry of this index with this key (and, when excluding, a different primary
key)? -/
def checkUniqueIndexConstraint (entries : List (Nat × Bytes × Bytes)) (indexId : Nat)
    (indexKey : Bytes) (excludePrimaryKey : Option Bytes) : Bool :=
  match excludePrimaryKey with
  | some ex => entries.any (fun e => e.1 == indexId && e.2.1 == indexKey && e.2.2 != ex)
  | none => entries.any (fun e => e.1 == indexId && e.2.1 == indexKey)

/-- `deleteIndexEntriesForRecord` (src/src/IDBFactory.ts:579-585): drop every
entry with this primary key whose index belongs to the store (`indexIds`). -/
def deleteIndexEntriesForRecord (entries : List (Nat × Bytes × Bytes)) (indexIds : List Nat)
    (primaryKey : Bytes) : List (Nat × Bytes × Bytes) :=
  entries.filter (fun e => !(e.2.2 == primaryKey && indexIds.contains e.1))

/-- `addIndexEntry` (src/src/IDBFactory.ts:769-775), `INSERT OR REPLACE` with
the full row as primary key: set insertion. -/
def addIndexEntry (entries : List (Nat × Bytes × Bytes)) (indexId : Nat) (k primaryKey : Bytes) :
    List (Nat × Bytes × Bytes) :=
  if entries.any (fun e => e == (indexId, k, primaryKey)) then entries
  else entries ++ [(indexId, k, primaryKey)]

/-! ## The add/put pipeline (src/src/IDBObjectStore.ts:1077-1268) -/

/-- One index of the store as the add/put pipeline observes it
(`getIndexesForStore`, src/src/IDBFactory.ts:588-599): its id, unique flag,
and the key extracted from a value along its key path
(`extractKeyFromValue`).  Only the single-entry extraction is modelled; the
multi-entry branch of `_addIndexEntries` is not needed by any claim settled
here. -/
structure IndexCfg (α : Type) where
  id : Nat
  unique : Bool
  keyOf : α → Option Key

/-- Records plus index entries of one object store. -/
structure StoreState (α : Type) where
  records : List (Bytes × α)
  indexEntries : List (Nat × Bytes × Bytes)

/-- The unique-constraint loop of the `_addOrPut` operation closure
(src/src/IDBObjectStore.ts:1184-1207): some unique index whose extracted key
collides with an existing entry (excluding the written primary key on
overwrite).  The source returns on the first violating index; as no state
changes before that return, the first-violation exit is equivalent to this
existential. -/
def someUniqueViolation {α : Type} (indexes : List (IndexCfg α))
    (entries : List (Nat × Bytes × Bytes)) (v : α) (excludePk : Option Bytes) : Bool :=
  indexes.any (fun idx =>
    idx.unique &&
      (match idx.keyOf v with
       | none => false
       | some ik => checkUniqueIndexConstraint entries idx.id (encodeKey ik) excludePk))

/-- The single-entry branch of `_addIndexEntries`
(src/src/IDBObjectStore.ts:1916-1926): for each index, add an entry for the
extracted key, skipping indexes whose key path does not resolve. -/
def addIndexEntries {α : Type} (entries : List (Nat × Bytes × Bytes))
    (indexes : List (IndexCfg α)) (v : α) (primaryKey : Bytes) : List (Nat × Bytes × Bytes) :=
  indexes.foldl
    (fun acc idx =>
      match idx.keyOf v with
      | none => acc
      | some ik => addIndexEntry acc idx.id (encodeKey ik) primaryKey)
    entries

/-- Outcome recorded on the request by the `_addOrPut` operation closure:
`request._result = effectiveKey` on success, `request._error` =
`ConstraintError` on a key or unique-index collision. -/
inductive RequestOutcome where
  | success (k : Key)
  | constraintError

/-- The `_addOrPut` operation closure for a resolved effective key
(src/src/IDBObjectStore.ts:1155-1248): check unique indexes, then under
`noOverwrite` fail on an existing row; otherwise on overwrite drop the old
index entries, write the record, and write the new index entries.  The
deferred auto-increment generation (`effectiveKey === null`) and the final
key-generator advance are settled separately through `nextKey` and
`maybeUpdateKeyGenerator`. -/
def addOrPutOp {α : Type} (noOverwrite : Bool) (indexes : List (IndexCfg α))
    (st : StoreState α) (effectiveKey : Key) (v : α) : StoreState α × RequestOutcome :=
  let encodedKey := encodeKey effectiveKey
  let excludeKey := if noOverwrite then none else some encodedKey
  if someUniqueViolation indexes st.indexEntries v excludeKey then
    (st, .constraintError)
  else if noOverwrite && (getRecord st.records encodedKey).isSome then
    (st, .constraintError)
  else
    let st1 :=
      if !noOverwrite then
        { st with indexEntries := deleteIndexEntriesForRecord st.indexEntries (indexes.map (fun i => i.id)) encodedKey }
      else st
    let st2 := { st1 with records := putRecord st1.records encodedKey v }
    let st3 := { st2 with indexEntries := addIndexEntries st2.indexEntries indexes v encodedKey }
    (st3, .success effectiveKey)

/-! ## The synchronous prelude of `_addOrPut` (src/src/IDBObjectStore.ts:1077-1146) -/

/-- Transaction modes. -/
inductive TxnMode where
  | readonly
  | readwrite
  | versionchange
  deriving DecidableEq, Repr

/-- The three outcomes of evaluating the store key path on the cloned value
(`extractKeyFromValue` together with `evaluateKeyPathDetailed`,
src/src/IDBObjectStore.ts:1113-1122): a resolved valid key, an unresolved
path, or a path that resolved to a non-key value. -/
inductive ExtractOutcome where
  | resolved (k : Key)
  | unresolved
  | invalid

/-- Configuration of one object store as `_addOrPut` observes it.
`keyPath` says whether the store uses in-line keys; `extract` is the
key-path evaluation on the cloned value, `canInject` the injectability
check for the auto-increment path. -/
structure StoreCfg (α : Type) where
  keyPath : Bool
  autoIncrement : Bool
  extract : α → ExtractOutcome
  canInject : α → Bool
  indexes : List (IndexCfg α)

/-- The synchronous key-determination part of `_addOrPut`
(src/src/IDBObjectStore.ts:1081-1146), run on the caller's stack before the
request is created.  Returns the effective key (`none` = auto-increment
placeholder, generated at operation time) or the thrown `DOMException`.
Structured cloning of the plain data values `α` always succeeds in this
model, so the clone step is the identity. -/
def addOrPutPrelude {α : Type} (cfg : StoreCfg α) (mode : TxnMode) (v : α)
    (keyArg : Option JSVal) : Except DOMErr (Option Key) :=
  if mode = .readonly then .error .ReadOnlyError
  else if cfg.keyPath then
    if keyArg.isSome then .error .DataError
    else
      match cfg.extract v with
      | .invalid => .error .DataError
      | .resolved k => .ok (some k)
      | .unresolved =>
        if cfg.autoIncrement then
          if cfg.canInject v then .ok none else .error .DataError
        else .error .DataError
  else
    match keyArg with
    | some kv =>
      match valueToKeyOrThrow kv with
      | .error e => .error e
      | .ok k => .ok (some k)
    | none => if cfg.autoIncrement then .ok none else .error .DataError

/-- State observed by one `add`/`put` call: the store tables plus the number
of requests created on the transaction. -/
structure CallState (α : Type) where
  store : StoreState α
  requestCount : Nat

/-- What an `add`/`put` call does on the caller's stack: either throws (no
request is created) or creates a request whose operation closure then runs. -/
inductive CallResult where
  | thrown (e : DOMErr)
  | completed (outcome : RequestOutcome)

/-- An entire `add`/`put` call on a started transaction: the synchronous
prelude, then (unless it threw) `_createRequest` and the operation closure.
The deferred auto-increment generation path (`.ok none` prelude result) is
outside this model and yields `none`. -/
def addOrPutCall {α : Type} (cfg : StoreCfg α) (mode : TxnMode) (noOverwrite : Bool)
    (cs : CallState α) (v : α) (keyArg : Option JSVal) : Option (CallState α × CallResult) :=
  match addOrPutPrelude cfg mode v keyArg with
  | .error e => some (cs, .thrown e)
  | .ok (some k) =>
    let (st, outcome) := addOrPutOp noOverwrite cfg.indexes cs.store k v
    some ({ store := st, requestCount := cs.requestCount + 1 }, .completed outcome)
  | .ok none => none

/-! ## Savepoint discipline and atomic abort
(src/src/IDBTransaction.ts:113-186 and 315-320, src/src/IDBFactory.ts:628-646)

Each transaction owns at most one SQLite savepoint, begun lazily by
`_ensureSavepoint` on the first mutating operation; `rollbackSavepoint`
(`ROLLBACK TO SAVEPOINT` + `RELEASE`) restores the database state captured
when the savepoint was begun.  The savepoint is modelled as a snapshot of
the store state. -/

/-- The mutating operations a transaction can issue against one store, each
of which calls `_ensureSavepoint` before touching the backend:
`add`/`put` with a resolved key (src/src/IDBObjectStore.ts:1151-1248),
`delete` by exact key (1371-1383), and `clear` (1417-1424). -/
inductive Mutation (α : Type) where
  | addRec (k : Key) (v : α)
  | putRec (k : Key) (v : α)
  | delRec (k : Key)
  | clear

/-- Effect of one mutating operation closure on the store state. -/
def applyMutation {α : Type} (indexes : List (IndexCfg α)) (st : StoreState α) :
    Mutation α → StoreState α
  | .addRec k v => (addOrPutOp true indexes st k v).1
  | .putRec k v => (addOrPutOp false indexes st k v).1
  | .delRec k =>
    { st with
      indexEntries := deleteIndexEntriesForRecord st.indexEntries (indexes.map (fun i => i.id)) (encodeKey k),
      records := deleteRecord st.records (encodeKey k) }
  | .clear => { st with records := clearRecords st.records }

/-- In-flight transaction: the optional savepoint snapshot
(`_savepointStarted`/`beginSavepoint`) and the live store state. -/
structure TxnState (α : Type) where
  savepoint : Option (StoreState α)
  store : StoreState α

/-- `_ensureSavepoint` (src/src/IDBTransaction.ts:315-320): begin the
savepoint — capture the current state — only if not already begun. -/
def ensureSavepoint {α : Type} (t : TxnState α) : TxnState α :=
  match t.savepoint with
  | some _ => t
  | none => { t with savepoint := some t.store }

/-- One mutating operation inside the transaction: `_ensureSavepoint`, then
the backend mutation. -/
def runMutation {α : Type} (indexes : List (IndexCfg α)) (t : TxnState α) (m : Mutation α) :
    TxnState α :=
  let t1 := ensureSavepoint t
  { t1 with store := applyMutation indexes t1.store m }

/-- `abort` (src/src/IDBTransaction.ts:113-186): roll the savepoint back if
one was begun — restoring the captured snapshot — else leave the backend
untouched.  The result is the store state every later transaction reads. -/
def abortTxn {α : Type} (t : TxnState α) : StoreState α :=
  match t.savepoint with
  | some snapshot => snapshot
  | none => t.store

/-! ## Transaction scheduler (src/unnamed/part_012) -/

/-- A queue entry of the per-database scheduler (`PendingTransaction`):
the transaction (identified by a number), its scope, mode and started flag.
`onStart` only fires the start callback and carries no state. -/
structure SchedEntry where
  txn : Nat
  scope : List String
  mode : TxnMode
  started : Bool

/-- `_scopesOverlap` (src/unnamed/part_012:87-92). -/
def scopesOverlap (a b : List String) : Bool :=
  a.any (fun name => b.contains name)

/-- `_canStart` (src/unnamed/part_012:55-84): an entry may start when no
earlier queue entry — started or pending — has an overlapping scope with
either transaction read-write.  The source walks the queue twice (started
entries, then pending ones) with the same overlap/mode test. -/
def canStart (earlier : List SchedEntry) (e : SchedEntry) : Bool :=
  let blocks := fun (o : SchedEntry) =>
    scopesOverlap e.scope o.scope &&
      (e.mode == TxnMode.readwrite || o.mode == TxnMode.readwrite)
  !(earlier.any (fun o => o.started && blocks o)) &&
    !(earlier.any (fun o => !o.started && blocks o))

/-- The walk of `_processQueue` (src/unnamed/part_012:43-54): visit entries
in creation order, starting every pending entry whose `_canStart` holds
against the (already updated) prefix. -/
def processQueueGo (done : List SchedEntry) : List SchedEntry → List SchedEntry
  | [] => done
  | e :: rest =>
    let e1 := if !e.started && canStart done e then { e with started := true } else e
    processQueueGo (done ++ [e1]) rest

/-- `_processQueue` (src/unnamed/part_012:43-54). -/
def processQueue (q : List SchedEntry) : List SchedEntry := processQueueGo [] q

/-- `addTransaction` (src/unnamed/part_012:24-33): append a pending entry,
then process the queue. -/
def addTransaction (q : List SchedEntry) (txn : Nat) (scope : List String) (mode : TxnMode) :
    List SchedEntry :=
  processQueue (q ++ [⟨txn, scope, mode, false⟩])

/-- `transactionFinished` (src/unnamed/part_012:35-41): remove the first
entry of this transaction, then process the queue. -/
def transactionFinished (q : List SchedEntry) (txn : Nat) : List SchedEntry :=
  processQueue (q.eraseP (fun e => e.txn == txn))

/-- Scheduler states reachable through the public interface.  `addTransaction`
is only ever called from `IDBDatabase.transaction`
(src/unnamed/part_007:267-292), which admits only the `readonly` and
`readwrite` modes; version-change transactions never enter the scheduler. -/
inductive SchedReachable : List SchedEntry → Prop where
  | nil : SchedReachable []
  | add (q : List SchedEntry) (txn : Nat) (scope : List String) (mode : TxnMode)
      (hmode : mode ≠ TxnMode.versionchange) (hq : SchedReachable q) :
      SchedReachable (addTransaction q txn scope mode)
  | finish (q : List SchedEntry) (txn : Nat) (hq : SchedReachable q) :
      SchedReachable (transactionFinished q txn)

/-! ## Index cursor iteration (src/unnamed/part_009:406-472,
src/src/IDBFactory.ts:795-829) -/

/-- Cursor directions. -/
inductive Direction where
  | next
  | nextunique
  | prev
  | prevunique
  deriving DecidableEq, Repr

/-- `direction === 'prev' || direction === 'prevunique'`. -/
def Direction.isReverse : Direction → Bool
  | .prev => true
  | .prevunique => true
  | _ => false

/-- `direction === 'nextunique' || direction === 'prevunique'`. -/
def Direction.isUnique : Direction → Bool
  | .nextunique => true
  | .prevunique => true
  | _ => false

/-- One row of `getIndexEntriesForCursor`: encoded index key and encoded
primary key (the joined value plays no role in the iteration order). -/
structure IndexEntry where
  indexKey : Bytes
  primaryKey : Bytes

/-- The skip test of the scan loop in `_iterateIndexCursor`
(src/unnamed/part_009:421-446), phrased as "this entry is not skipped":
with no position everything qualifies; in a unique direction entries at the
position's index key or behind it are skipped; otherwise entries behind the
`(index key, primary key)` position (inclusive) are skipped.
`Buffer.compare` is `lexCompareNat`. -/
def entryPasses (dir : Direction) (pos : Option (Bytes × Bytes)) (e : IndexEntry) : Bool :=
  match pos with
  | none => true
  | some (p, osp) =>
    let indexCmp := lexCompareNat e.indexKey p
    if dir.isUnique then
      if indexCmp = 0 then false
      else if (if dir.isReverse then indexCmp > 0 else indexCmp < 0) then false
      else true
    else
      if dir.isReverse then
        if indexCmp > 0 then false
        else if indexCmp = 0 && lexCompareNat e.primaryKey osp ≥ 0 then false
        else true
      else
        if indexCmp < 0 then false
        else if indexCmp = 0 && lexCompareNat e.primaryKey osp ≤ 0 then false
        else true

/-- One `continue()` step of `_iterateIndexCursor` with no target key: the
first entry (in the backend's direction order) that is not skipped.  The
initial `openCursor` fetch (src/unnamed/part_009:785-795) takes `entries[0]`,
which is this step at position `none`. -/
def cursorStep (dir : Direction) (entries : List IndexEntry) (pos : Option (Bytes × Bytes)) :
    Option IndexEntry :=
  entries.find? (entryPasses dir pos)

/-- The sequence of `(index key, primary key)` pairs delivered by opening a
cursor and calling `continue()` until it reports `null`; on each hit the
position becomes the found entry (src/unnamed/part_009:458-460).  `fuel`
bounds the number of steps; the source iteration terminates because each
found entry is strictly ahead of the previous position. -/
def cursorVisits (fuel : Nat) (dir : Direction) (entries : List IndexEntry)
    (pos : Option (Bytes × Bytes)) : List (Bytes × Bytes) :=
  match fuel with
  | 0 => []
  | fuel + 1 =>
    match cursorStep dir entries pos with
    | none => []
    | some e => (e.indexKey, e.primaryKey) :: cursorVisits fuel dir entries (some (e.indexKey, e.primaryKey))

/-- The rows `getIndexEntriesForCursor` returns are ordered by
`ORDER BY key ASC, primary_key ASC` for the forward directions
(src/src/IDBFactory.ts:818-824). -/
def sortedNextOrder (entries : List IndexEntry) : Prop :=
  entries.Pairwise (fun a b =>
    lexCompareNat a.indexKey b.indexKey = -1 ∨
      (a.indexKey = b.indexKey ∧ lexCompareNat a.primaryKey b.primaryKey = -1))

/-- The rows `getIndexEntriesForCursor` returns are ordered by
`ORDER BY key DESC, primary_key ASC` for `prevunique`
(src/src/IDBFactory.ts:818-824). -/
def sortedPrevUniqueOrder (entries : List IndexEntry) : Prop :=
  entries.Pairwise (fun a b =>
    lexCompareNat a.indexKey b.indexKey = 1 ∨
      (a.indexKey = b.indexKey ∧ lexCompareNat a.primaryKey b.primaryKey = -1))

/-! # Theorems -/

/-! ## Basic facts about the comparators -/

theorem jsCompareNum_self (a : Nat) : jsCompareNum a a = 0 := by
  simp [jsCompareNum, jsEqNum]

theorem lexCompareNat_self (l : List Nat) : lexCompareNat l l = 0 := by
  induction l with
  | nil => rfl
  | cons a as ih => simp [lexCompareNat, ih]

mutual

theorem compareKeys_self (k : Key) : compareKeys k k = 0 := by
  match k with
  | .num a => simp [compareKeys, jsCompareNum_self]
  | .date a => simp [compareKeys, jsCompareNum_self]
  | .str a => simp [compareKeys, lexCompareNat_self]
  | .bin a => simp [compareKeys, lexCompareNat_self]
  | .arr es => simpa [compareKeys] using compareKeyLists_self es

theorem compareKeyLists_self (ks : List Key) : compareKeyLists ks ks = 0 := by
  match ks with
  | [] => rfl
  | k :: rest => simp [compareKeyLists, compareKeys_self k, compareKeyLists_self rest]

end

/-! ## C1 — codec round-trip -/

/-- C1.  The claimed codec round-trip law — `decodeKey (encodeKey k)` equal
to `k` under `compareKeys` for every valid key — fails on the code: the
string key `"\u0001"` encodes its single code unit as the byte pair
`00 01` (src/unnamed/part_010:205-216 emits `hi = 0, lo = 1`), which is
exactly the escape sequence the decoder reads back as `U+0000`
(src/unnamed/part_010:279-283).  So `"\u0001"` decodes to `"\u0000"`, a
strictly smaller key.  (Both keys are valid: both are one-code-unit
strings.) -/
theorem C1_roundTrip_fails_on_ctrlA :
    decodeKey (encodeKey (Key.str [1])) = some (Key.str [0]) ∧
      compareKeys (Key.str [0]) (Key.str [1]) = -1 := by
  exact ⟨rfl, rfl⟩

/-! ## C2 — codec monotonicity -/

/-- C2.  The claimed monotonicity law
`sign (compareKeys a b) = sign (memcmp (encodeKey a) (encodeKey b))` fails
on the code at two independent pairs of valid keys.
(1) `+0` and `-0` compare equal (`0 === -0` in `compareKeys`,
src/unnamed/part_010:105-110), but their encodings differ: `encodeDouble`
maps the `+0` pattern to `80 00 … 00` and the `-0` pattern to `7f ff … ff`,
so memcmp says `+0 > -0`.
(2) `"\u0000"` compares strictly below `"\u0001"`, but both strings encode
to the identical byte sequence `30 00 01 00 00` (the `00 01` escape
collision of C1), so memcmp says they are equal. -/
theorem C2_monotonicity_fails :
    (compareKeys (Key.num 0) (Key.num NEG_ZERO_BITS) = 0 ∧
      lexCompareNat (encodeKey (Key.num 0)) (encodeKey (Key.num NEG_ZERO_BITS)) = 1) ∧
    (compareKeys (Key.str [0]) (Key.str [1]) = -1 ∧
      lexCompareNat (encodeKey (Key.str [0])) (encodeKey (Key.str [1])) = 0) := by
  exact ⟨⟨rfl, rfl⟩, ⟨rfl, rfl⟩⟩

/-! ## C7 — key validation of non-finite numbers -/

/-- C7 counterexample.  The claim that `valueToKey` rejects every non-finite
number fails on the code: `valueToKey` only tests `Number.isNaN`
(src/unnamed/part_010:31-33), so `+Infinity` and `-Infinity` are accepted
as number keys (consistent with the W3C key conversion, which the
auto-increment generator also relies on by treating a stored `+Infinity`
key specially). -/
theorem C7_infinity_accepted :
    isInfBits POS_INF_BITS = true ∧
      valueToKey (JSVal.num POS_INF_BITS) = some (Key.num POS_INF_BITS) ∧
      isInfBits NEG_INF_BITS = true ∧
      valueToKey (JSVal.num NEG_INF_BITS) = some (Key.num NEG_INF_BITS) := by
  exact ⟨rfl, rfl, rfl, rfl⟩

/-- C7 amended.  Among numbers exactly the NaN patterns are rejected (with
`DataError` from `valueToKeyOrThrow`); the infinities are accepted.  Dates
with NaN or non-finite time values, and values of non-key types, are
rejected with `DataError` as claimed. -/
theorem C7_amended_validation :
    (∀ bits, isNaNBits bits = true →
      valueToKey (JSVal.num bits) = none ∧
        valueToKeyOrThrow (JSVal.num bits) = .error .DataError) ∧
    (∀ bits, isNaNBits bits = false →
      valueToKey (JSVal.num bits) = some (.num bits)) ∧
    (∀ t, (isNaNBits t || !isFiniteBits t) = true →
      valueToKey (JSVal.date t) = none ∧
        valueToKeyOrThrow (JSVal.date t) = .error .DataError) ∧
    (valueToKey JSVal.other = none ∧
      valueToKeyOrThrow JSVal.other = .error .DataError) := by
  refine ⟨fun bits h => ?_, fun bits h => ?_, fun t h => ?_, ?_⟩
  · simp [valueToKey, valueToKeyOrThrow, h]
  · simp [valueToKey, h]
  · simp [valueToKey, valueToKeyOrThrow, h]
  · simp [valueToKey, valueToKeyOrThrow]

/-- Witness for `C7_amended_validation` at the canonical quiet-NaN pattern
`0x7FF8000000000000`, the `+Infinity` date time pattern, and `other`. -/
theorem C7_amended_validation_witness :
    valueToKey (JSVal.num 9221120237041090560) = none ∧
      valueToKey (JSVal.num 0) = some (.num 0) ∧
      valueToKey (JSVal.date POS_INF_BITS) = none := by
  refine ⟨(C7_amended_validation.1 9221120237041090560 (by decide)).1,
    C7_amended_validation.2.1 0 (by decide),
    (C7_amended_validation.2.2.1 POS_INF_BITS (by decide)).1⟩

/-! ## C6 — key generator advance rule -/

/-- C6 counterexample.  The claim that the generator advances only on a
finite **integer** key fails on the code: `_maybeUpdateKeyGenerator` floors
the key first (src/src/IDBObjectStore.ts:1854), so the non-integer key
`5.5` with stored value `3` advances the generator to `5`. -/
theorem C6_nonInteger_advances :
    maybeUpdateKeyGenerator true 3 (JSNum.fin (11 / 2)) = 5 ∧
      ¬ ∃ n : ℤ, (11 / 2 : ℚ) = (n : ℚ) := by
  constructor
  · have hfloor : (⌊(11 / 2 : ℚ)⌋ : ℤ) = 5 := by norm_num
    simp [maybeUpdateKeyGenerator, hfloor, MAX_KEY_GENERATOR_VALUE]
  · rintro ⟨n, hn⟩
    have h2 : (11 : ℚ) = 2 * n := by field_simp at hn; linarith
    have : (2 : ℤ) ∣ 11 := ⟨n, by exact_mod_cast h2⟩
    omega

/-- C6 amended.  On an auto-increment store a successful store with numeric
key `k` advances the generator exactly when `⌊k⌋ ≥ 1` and `⌊k⌋ ≥ current`,
setting it to `min ⌊k⌋ 2^53`; `+Infinity` pins the generator to the 2^53
ceiling; NaN, `-Infinity` and keys with floor below 1 (in particular all
keys below 1) leave it unchanged, as does a floor below the current value;
and the next generated key is the stored value plus one (failing at the
ceiling). -/
theorem C6_generator_rule :
    (∀ (c : ℤ) (q : ℚ), 1 ≤ ⌊q⌋ → c ≤ ⌊q⌋ →
      maybeUpdateKeyGenerator true c (JSNum.fin q) = min ⌊q⌋ MAX_KEY_GENERATOR_VALUE) ∧
    (∀ (c : ℤ) (q : ℚ), ⌊q⌋ < 1 →
      maybeUpdateKeyGenerator true c (JSNum.fin q) = c) ∧
    (∀ (c : ℤ) (q : ℚ), ⌊q⌋ < c →
      maybeUpdateKeyGenerator true c (JSNum.fin q) = c) ∧
    (∀ c : ℤ, maybeUpdateKeyGenerator true c JSNum.posInf = MAX_KEY_GENERATOR_VALUE) ∧
    (∀ c : ℤ, maybeUpdateKeyGenerator true c JSNum.nan = c) ∧
    (∀ c : ℤ, maybeUpdateKeyGenerator true c JSNum.negInf = c) ∧
    (∀ c : ℤ, c < MAX_KEY_GENERATOR_VALUE → nextKey c = some (c + 1)) ∧
    (∀ c : ℤ, MAX_KEY_GENERATOR_VALUE ≤ c → nextKey c = none) := by
  refine ⟨fun c q h1 h2 => ?_, fun c q h => ?_, fun c q h => ?_,
    fun c => rfl, fun c => rfl, fun c => rfl,
    fun c h => ?_, fun c h => ?_⟩
  · simp only [maybeUpdateKeyGenerator]
    rw [if_neg (show ¬(⌊q⌋ < 1) by omega), if_pos (show ⌊q⌋ ≥ c by omega)]
    simp
  · simp only [maybeUpdateKeyGenerator]
    rw [if_pos (show ⌊q⌋ < 1 from h)]
    simp
  · simp only [maybeUpdateKeyGenerator]
    by_cases h1 : (⌊q⌋ : ℤ) < 1
    · rw [if_pos h1]
      simp
    · rw [if_neg h1, if_neg (show ¬(⌊q⌋ ≥ c) by omega)]
      simp
  · simp [nextKey, show ¬(c ≥ MAX_KEY_GENERATOR_VALUE) from by omega]
  · simp [nextKey, show c ≥ MAX_KEY_GENERATOR_VALUE from by omega]

/-- Witness for `C6_generator_rule`: stored value 3, keys `7`, `-2`, `2`,
and the generator bounds. -/
theorem C6_generator_rule_witness :
    maybeUpdateKeyGenerator true 3 (JSNum.fin 7) = min 7 MAX_KEY_GENERATOR_VALUE ∧
      maybeUpdateKeyGenerator true 3 (JSNum.fin (-2)) = 3 ∧
      maybeUpdateKeyGenerator true 3 (JSNum.fin 2) = 3 ∧
      nextKey 3 = some 4 ∧
      nextKey MAX_KEY_GENERATOR_VALUE = none := by
  refine ⟨C6_generator_rule.1 3 7 (by norm_num) (by norm_num),
    C6_generator_rule.2.1 3 (-2) (by norm_num),
    C6_generator_rule.2.2.1 3 2 (by norm_num),
    C6_generator_rule.2.2.2.2.2.2.1 3 (by norm_num [MAX_KEY_GENERATOR_VALUE]),
    C6_generator_rule.2.2.2.2.2.2.2 MAX_KEY_GENERATOR_VALUE le_rfl⟩

/-! ## C10 — key range bound ordering -/

/-- C10.  `IDBKeyRange.bound` throws `DataError` whenever the converted
lower bound compares greater than the converted upper bound, and every range
produced by `only`/`lowerBound`/`upperBound`/`bound` whose two bounds are
both present has `lower ≤ upper` under `compareKeys` (`lowerBound` and
`upperBound` never produce both bounds). -/
theorem C10_keyRange_bound_ordering :
    (∀ (lo hi : JSVal) (loOpen hiOpen : Bool) (kl ku : Key),
      valueToKey lo = some kl → valueToKey hi = some ku → compareKeys kl ku > 0 →
        KeyRange.bound lo hi loOpen hiOpen = .error .DataError) ∧
    (∀ (v : JSVal) (r : KeyRange), KeyRange.only v = .ok r →
      ∀ a b, r.lower = some a → r.upper = some b → compareKeys a b ≤ 0) ∧
    (∀ (v : JSVal) (opn : Bool) (r : KeyRange), KeyRange.lowerBound v opn = .ok r →
      r.upper = none) ∧
    (∀ (v : JSVal) (opn : Bool) (r : KeyRange), KeyRange.upperBound v opn = .ok r →
      r.lower = none) ∧
    (∀ (lo hi : JSVal) (loOpen hiOpen : Bool) (r : KeyRange),
      KeyRange.bound lo hi loOpen hiOpen = .ok r →
        ∀ a b, r.lower = some a → r.upper = some b → compareKeys a b ≤ 0) := by
  refine ⟨fun lo hi loOpen hiOpen kl ku hl hu hc => ?_,
    fun v r hr a b ha hb => ?_, fun v opn r hr => ?_, fun v opn r hr => ?_,
    fun lo hi loOpen hiOpen r hr a b ha hb => ?_⟩
  · simp [KeyRange.bound, valueToKeyOrThrow, hl, hu, hc]
  · cases hv : valueToKey v with
    | none => simp [KeyRange.only, valueToKeyOrThrow, hv] at hr
    | some k =>
      simp [KeyRange.only, valueToKeyOrThrow, hv] at hr
      subst hr
      simp at ha hb
      subst ha; subst hb
      simp [compareKeys_self]
  · cases hv : valueToKey v with
    | none => simp [KeyRange.lowerBound, valueToKeyOrThrow, hv] at hr
    | some k =>
      simp [KeyRange.lowerBound, valueToKeyOrThrow, hv] at hr
      subst hr; rfl
  · cases hv : valueToKey v with
    | none => simp [KeyRange.upperBound, valueToKeyOrThrow, hv] at hr
    | some k =>
      simp [KeyRange.upperBound, valueToKeyOrThrow, hv] at hr
      subst hr; rfl
  · cases hl : valueToKey lo with
    | none => simp [KeyRange.bound, valueToKeyOrThrow, hl] at hr
    | some kl =>
      cases hu : valueToKey hi with
      | none => simp [KeyRange.bound, valueToKeyOrThrow, hl, hu] at hr
      | some ku =>
        by_cases hc : compareKeys kl ku > 0
        · simp [KeyRange.bound, valueToKeyOrThrow, hl, hu, hc] at hr
        · simp [KeyRange.bound, valueToKeyOrThrow, hl, hu, hc] at hr
          subst hr
          simp at ha hb
          subst ha; subst hb
          omega

/-- Witness for `C10_keyRange_bound_ordering`: `bound(1-element string, empty
string)` throws `DataError` (a nonempty string compares above the empty
one), and `only` on a number yields equal bounds. -/
theorem C10_keyRange_bound_ordering_witness :
    KeyRange.bound (JSVal.str [7]) (JSVal.str []) false false = .error .DataError ∧
      compareKeys (Key.num 0) (Key.num 0) ≤ 0 := by
  refine ⟨C10_keyRange_bound_ordering.1 (JSVal.str [7]) (JSVal.str []) false false
      (Key.str [7]) (Key.str []) rfl rfl (by decide), ?_⟩
  exact C10_keyRange_bound_ordering.2.1 (JSVal.num 0) ⟨some (Key.num 0), some (Key.num 0), false, false⟩ rfl
    (Key.num 0) (Key.num 0) rfl rfl

/-! ## C9 — explicit key argument on an in-line-key store -/

/-- C9.  On a store with a non-null key path, `add`/`put` with an explicit
key argument throws `DataError` on the caller's stack
(src/src/IDBObjectStore.ts:1106-1111): no request is created and the store
state is returned untouched.  (On a read-only transaction the earlier
`ReadOnlyError` check fires instead, hence the mode hypothesis.) -/
theorem C9_inline_key_argument {α : Type} (cfg : StoreCfg α) (mode : TxnMode)
    (noOverwrite : Bool) (cs : CallState α) (v : α) (kv : JSVal)
    (hkp : cfg.keyPath = true) (hmode : mode ≠ TxnMode.readonly) :
    addOrPutCall cfg mode noOverwrite cs v (some kv) = some (cs, .thrown .DataError) := by
  simp [addOrPutCall, addOrPutPrelude, hkp, hmode]

/-- Witness for `C9_inline_key_argument`: a concrete in-line-key store in a
read-write transaction with one record. -/
theorem C9_inline_key_argument_witness :
    addOrPutCall
        (α := Nat)
        ⟨true, false, fun _ => ExtractOutcome.unresolved, fun _ => true, []⟩
        TxnMode.readwrite true ⟨⟨[([16], 5)], []⟩, 2⟩ 7 (some (JSVal.num 0)) =
      some (⟨⟨[([16], 5)], []⟩, 2⟩, .thrown .DataError) :=
  C9_inline_key_argument _ _ _ _ _ _ rfl (by decide)

/-! ## C5 — add versus put on an existing primary key -/

theorem find?_map_replace_self {α : Type} (k : Bytes) (v : α) :
    ∀ (recs : List (Bytes × α)), recs.any (fun e => e.1 == k) = true →
      (recs.map (fun e => if e.1 == k then (k, v) else e)).find? (fun e => e.1 == k) =
        some (k, v) := by
  intro recs hany
  induction recs with
  | nil => simp at hany
  | cons e rest ih =>
    simp only [List.map_cons]
    by_cases he : (e.1 == k) = true
    · rw [if_pos he]
      simp
    · rw [if_neg he]
      have he0 : (e.1 == k) = false := by simpa using he
      simp only [List.any_cons, he0, Bool.false_or] at hany
      simp [he0, -List.find?_map]
      simpa using ih hany

theorem find?_map_replace_ne {α : Type} (k k2 : Bytes) (v : α) (hne : (k == k2) = false) :
    ∀ (recs : List (Bytes × α)),
      (recs.map (fun e => if e.1 == k then (k, v) else e)).find? (fun e => e.1 == k2) =
        recs.find? (fun e => e.1 == k2) := by
  intro recs
  induction recs with
  | nil => rfl
  | cons e rest ih =>
    simp only [List.map_cons]
    by_cases he : (e.1 == k) = true
    · rw [if_pos he]
      have he1 : e.1 = k := by simpa using he
      have hk2e : (e.1 == k2) = false := by rw [he1]; exact hne
      simp [hne, hk2e, -List.find?_map]
      simpa using ih
    · rw [if_neg he]
      by_cases hp : (e.1 == k2) = true
      · simp [hp, -List.find?_map]
      · have hp0 : (e.1 == k2) = false := by simpa using hp
        simp [hp0, -List.find?_map]
        simpa using ih

/-- `putRecord` stores the value under the written key. -/
theorem getRecord_putRecord_self {α : Type} (recs : List (Bytes × α)) (k : Bytes) (v : α) :
    getRecord (putRecord recs k v) k = some v := by
  unfold putRecord getRecord
  by_cases hany : recs.any (fun e => e.1 == k) = true
  · rw [if_pos hany, find?_map_replace_self k v recs hany]
    rfl
  · rw [if_neg hany, List.find?_append]
    have hnone : recs.find? (fun e => e.1 == k) = none := by
      rw [List.find?_eq_none]
      intro x hx hpx
      exact hany (List.any_eq_true.mpr ⟨x, hx, hpx⟩)
    rw [hnone]
    simp

/-- `putRecord` leaves every other key unchanged. -/
theorem getRecord_putRecord_ne {α : Type} (recs : List (Bytes × α)) (k k2 : Bytes) (v : α)
    (h : k2 ≠ k) : getRecord (putRecord recs k v) k2 = getRecord recs k2 := by
  have hne : (k == k2) = false := beq_eq_false_iff_ne.mpr (fun hk => h hk.symm)
  unfold putRecord getRecord
  by_cases hany : recs.any (fun e => e.1 == k) = true
  · rw [if_pos hany, find?_map_replace_ne k k2 v hne recs]
  · rw [if_neg hany, List.find?_append]
    have hlast : ([(k, v)].find? (fun e => e.1 == k2)) = none := by simp [hne]
    rw [hlast]
    simp

/-- C5.  If the store already holds a record under the encoded primary key,
the `add` operation leaves the store tables untouched and finishes with
`ConstraintError`, while the `put` operation (provided no unique index of
the store collides on another row — the separate unique-index rule) finishes
successfully with the key as its result, stores `v` under the key, and
leaves every other record unchanged. -/
theorem C5_add_put_existing_key {α : Type} (indexes : List (IndexCfg α))
    (st : StoreState α) (k : Key) (v v0 : α)
    (hexist : getRecord st.records (encodeKey k) = some v0)
    (huniq : someUniqueViolation indexes st.indexEntries v (some (encodeKey k)) = false) :
    addOrPutOp true indexes st k v = (st, .constraintError) ∧
      (addOrPutOp false indexes st k v).2 = .success k ∧
      getRecord (addOrPutOp false indexes st k v).1.records (encodeKey k) = some v ∧
      ∀ k2, k2 ≠ encodeKey k →
        getRecord (addOrPutOp false indexes st k v).1.records k2 = getRecord st.records k2 := by
  refine ⟨?_, ?_, ?_, ?_⟩
  · unfold addOrPutOp
    by_cases hu : someUniqueViolation indexes st.indexEntries v
        (if (true : Bool) = true then none else some (encodeKey k)) = true
    · rw [if_pos hu]
    · rw [if_neg hu, if_pos (by simp [hexist])]
  · unfold addOrPutOp
    rw [if_neg (by simpa using huniq)]
    simp
  · unfold addOrPutOp
    rw [if_neg (by simpa using huniq)]
    simp [getRecord_putRecord_self]
  · intro k2 hk2
    unfold addOrPutOp
    rw [if_neg (by simpa using huniq)]
    simp [getRecord_putRecord_ne _ _ _ _ hk2]

/-- Witness for `C5_add_put_existing_key`: a one-record store with no
indexes, key `0`, old value `5`, new value `7`. -/
theorem C5_add_put_existing_key_witness :
    addOrPutOp (α := Nat) true [] ⟨[(encodeKey (Key.num 0), 5)], []⟩ (Key.num 0) 7 =
        (⟨[(encodeKey (Key.num 0), 5)], []⟩, .constraintError) ∧
      getRecord (addOrPutOp (α := Nat) false [] ⟨[(encodeKey (Key.num 0), 5)], []⟩
          (Key.num 0) 7).1.records (encodeKey (Key.num 0)) = some 7 := by
  have h := C5_add_put_existing_key (α := Nat) [] ⟨[(encodeKey (Key.num 0), 5)], []⟩
    (Key.num 0) 7 5 (by rfl) (by rfl)
  exact ⟨h.1, h.2.2.1⟩

/-! ## C3 — atomic abort -/

/-- Rolling back after one more mutation gives the same state as rolling
back now: the savepoint snapshot, once taken, is never moved, and the first
mutation takes it before touching the backend. -/
theorem abortTxn_runMutation {α : Type} (indexes : List (IndexCfg α)) (t : TxnState α)
    (m : Mutation α) : abortTxn (runMutation indexes t m) = abortTxn t := by
  unfold runMutation ensureSavepoint abortTxn
  cases h : t.savepoint <;> simp [h]

theorem abortTxn_foldl {α : Type} (indexes : List (IndexCfg α)) :
    ∀ (ms : List (Mutation α)) (t : TxnState α),
      abortTxn (ms.foldl (runMutation indexes) t) = abortTxn t := by
  intro ms
  induction ms with
  | nil => intro t; rfl
  | cons m rest ih =>
    intro t
    rw [List.foldl_cons, ih, abortTxn_runMutation]

/-- C3.  Starting from any store state, run any sequence of
`add`/`put`/`delete`/`clear` operation closures inside one transaction
(savepoint discipline included) and then `abort()`: the rolled-back state is
exactly the initial one, so every later read — `getRecord`, `countRecords`,
or a scan of the records — observes the store as it was before the
transaction. -/
theorem C3_atomic_abort {α : Type} (indexes : List (IndexCfg α)) (σ0 : StoreState α)
    (ms : List (Mutation α)) :
    abortTxn (ms.foldl (runMutation indexes) ⟨none, σ0⟩) = σ0 ∧
      (∀ k, getRecord (abortTxn (ms.foldl (runMutation indexes) ⟨none, σ0⟩)).records k =
        getRecord σ0.records k) ∧
      countRecords (abortTxn (ms.foldl (runMutation indexes) ⟨none, σ0⟩)).records =
        countRecords σ0.records := by
  have h : abortTxn (ms.foldl (runMutation indexes) ⟨none, σ0⟩) = σ0 := by
    rw [abortTxn_foldl]
    rfl
  exact ⟨h, fun k => by rw [h], by rw [h]⟩

/-! ## C4 — scheduler scope-overlap invariant -/

/-- Scope overlap is symmetric (both sides say "some name lies in both
lists"). -/
theorem scopesOverlap_comm (a b : List String) :
    scopesOverlap a b = scopesOverlap b a := by
  unfold scopesOverlap
  rw [Bool.eq_iff_iff]
  simp only [List.any_eq_true, List.contains_iff_exists_mem_beq, beq_iff_eq]
  constructor
  · rintro ⟨x, hx, y, hy, rfl⟩
    exact ⟨x, hy, x, hx, rfl⟩
  · rintro ⟨x, hx, y, hy, rfl⟩
    exact ⟨x, hy, x, hx, rfl⟩

/-- The compatibility `_canStart` enforces between a candidate and one
earlier queue entry: no scope overlap, or neither transaction read-write. -/
def schedCompat (e o : SchedEntry) : Prop :=
  scopesOverlap e.scope o.scope = false ∨
    (e.mode ≠ TxnMode.readwrite ∧ o.mode ≠ TxnMode.readwrite)

/-- `_canStart` succeeds only when the candidate is compatible with every
earlier entry, started or pending. -/
theorem canStart_compat {earlier : List SchedEntry} {e : SchedEntry}
    (h : canStart earlier e = true) : ∀ o ∈ earlier, schedCompat e o := by
  intro o ho
  unfold canStart at h
  simp only [Bool.and_eq_true, Bool.not_eq_true', List.any_eq_false] at h
  obtain ⟨h1, h2⟩ := h
  have hb1 := h1 o ho
  have hb2 := h2 o ho
  simp only [Bool.and_eq_true, not_and, Bool.not_eq_true'] at hb1 hb2
  have hblock : (scopesOverlap e.scope o.scope &&
      (e.mode == TxnMode.readwrite || o.mode == TxnMode.readwrite)) = false := by
    cases hs : o.started with
    | true => simpa [hs] using hb1
    | false => simpa [hs] using hb2
  simp only [Bool.and_eq_false_iff, Bool.or_eq_false_iff, beq_eq_false_iff_ne] at hblock
  rcases hblock with h | ⟨h1, h2⟩
  · exact Or.inl (by simpa using h)
  · exact Or.inr ⟨h1, h2⟩

/-- The pairwise invariant maintained on the scheduler queue: every started
entry is compatible with every entry created before it. -/
def schedInv (q : List SchedEntry) : Prop :=
  q.Pairwise (fun o e => e.started = true → schedCompat e o)

/-- Modes never change during queue processing: the processed queue has the
same entries up to the `started` flag. -/
theorem processQueueGo_map_mode :
    ∀ (rest done : List SchedEntry),
      (processQueueGo done rest).map (fun e => (e.txn, e.scope, e.mode)) =
        (done ++ rest).map (fun e => (e.txn, e.scope, e.mode)) := by
  intro rest
  induction rest with
  | nil => intro done; simp [processQueueGo]
  | cons e rest ih =>
    intro done
    unfold processQueueGo
    rw [ih]
    by_cases h : (!e.started && canStart done e) = true
    · simp [h]
    · simp [h]

/-- Starting a pending entry that `_canStart` cleared preserves the queue
invariant: against earlier entries compatibility comes from `_canStart`,
and towards later entries only scope and mode matter, which do not change. -/
theorem schedInv_start_entry (done rest : List SchedEntry) (e : SchedEntry)
    (hcs : canStart done e = true)
    (hp : schedInv (done ++ e :: rest)) :
    schedInv (done ++ { e with started := true } :: rest) := by
  unfold schedInv at hp ⊢
  rw [List.pairwise_append] at hp ⊢
  obtain ⟨hdone, hcr, hcross⟩ := hp
  rw [List.pairwise_cons] at hcr
  obtain ⟨he_rest, hrest⟩ := hcr
  refine ⟨hdone, ?_, ?_⟩
  · rw [List.pairwise_cons]
    exact ⟨fun r hr => he_rest r hr, hrest⟩
  · intro a ha b hb
    rcases List.mem_cons.mp hb with rfl | hb
    · intro _
      exact canStart_compat hcs a ha
    · exact hcross a ha b (List.mem_cons_of_mem _ hb)

/-- The `_processQueue` walk preserves the queue invariant. -/
theorem schedInv_processQueueGo :
    ∀ (rest done : List SchedEntry), schedInv (done ++ rest) →
      schedInv (processQueueGo done rest) := by
  intro rest
  induction rest with
  | nil => intro done hp; simpa [processQueueGo] using hp
  | cons e rest ih =>
    intro done hp
    unfold processQueueGo
    by_cases hc : (!e.started && canStart done e) = true
    · simp only [hc, if_true]
      apply ih
      have hcs : canStart done e = true := by
        simp only [Bool.and_eq_true] at hc
        exact hc.2
      have := schedInv_start_entry done rest e hcs hp
      simpa [schedInv] using this
    · simp only [hc, if_false]
      apply ih
      simpa [schedInv] using hp

/-- Queue processing preserves the invariant. -/
theorem schedInv_processQueue (q : List SchedEntry) (hp : schedInv q) :
    schedInv (processQueue q) :=
  schedInv_processQueueGo q [] hp

/-- Membership modulo the `started` flag is preserved by queue processing. -/
theorem mode_mem_processQueue {q : List SchedEntry} {x : SchedEntry}
    (hx : x ∈ processQueue q) : ∃ y ∈ q, y.mode = x.mode := by
  have hmap := processQueueGo_map_mode q []
  have : (x.txn, x.scope, x.mode) ∈ q.map (fun e => (e.txn, e.scope, e.mode)) := by
    have hx2 := List.mem_map_of_mem (fun e => (e.txn, e.scope, e.mode)) hx
    unfold processQueue at hx2
    rw [hmap] at hx2
    simpa using hx2
  obtain ⟨y, hy, hxy⟩ := List.mem_map.mp this
  exact ⟨y, hy, congrArg (fun p => p.2.2) hxy⟩

/-- Every reachable queue satisfies the pairwise invariant and contains no
version-change entries. -/
theorem schedInv_reachable {q : List SchedEntry} (h : SchedReachable q) :
    schedInv q ∧ ∀ e ∈ q, e.mode ≠ TxnMode.versionchange := by
  induction h with
  | nil => exact ⟨List.Pairwise.nil, by simp⟩
  | add q txn scope mode hmode hq ih =>
    obtain ⟨hinv, hmodes⟩ := ih
    have hinv1 : schedInv (q ++ [⟨txn, scope, mode, false⟩]) := by
      unfold schedInv
      rw [List.pairwise_append]
      refine ⟨hinv, List.pairwise_singleton _ _, ?_⟩
      intro a ha b hb
      simp only [List.mem_singleton] at hb
      subst hb
      intro hstarted
      simp at hstarted
    refine ⟨schedInv_processQueue _ hinv1, ?_⟩
    intro e he
    obtain ⟨y, hy, hym⟩ := mode_mem_processQueue he
    rw [← hym]
    rcases List.mem_append.mp hy with hy | hy
    · exact hmodes y hy
    · simp only [List.mem_singleton] at hy
      subst hy
      exact hmode
  | finish q txn hq ih =>
    obtain ⟨hinv, hmodes⟩ := ih
    have hsub := List.eraseP_sublist (p := fun e => e.txn == txn) q
    have hinv1 : schedInv (q.eraseP (fun e => e.txn == txn)) :=
      List.Pairwise.sublist hsub hinv
    refine ⟨schedInv_processQueue _ hinv1, ?_⟩
    intro e he
    obtain ⟨y, hy, hym⟩ := mode_mem_processQueue he
    rw [← hym]
    exact hmodes y (hsub.subset hy)

/-- A mode that is neither read-write nor version-change is read-only. -/
theorem mode_eq_readonly {m : TxnMode} (h1 : m ≠ TxnMode.readwrite)
    (h2 : m ≠ TxnMode.versionchange) : m = TxnMode.readonly := by
  cases m <;> simp_all

/-- C4.  In every state reachable by adding and finishing transactions on
one database's scheduler, (1) any two simultaneously started transactions
whose scopes share a store name are both read-only, and (2) `_canStart`
clears a pending transaction only when every earlier queue entry either
does not overlap its scope or overlaps while both are read-only (stated for
the scheduler's two admissible modes). -/
theorem C4_scheduler_scope_overlap (q : List SchedEntry) (h : SchedReachable q) :
    q.Pairwise (fun a b => a.started = true → b.started = true →
      scopesOverlap a.scope b.scope = true →
      a.mode = TxnMode.readonly ∧ b.mode = TxnMode.readonly) ∧
    (∀ (done : List SchedEntry) (e : SchedEntry), canStart done e = true →
      e.mode ≠ TxnMode.versionchange → (∀ o ∈ done, o.mode ≠ TxnMode.versionchange) →
      ∀ o ∈ done, scopesOverlap e.scope o.scope = false ∨
        (e.mode = TxnMode.readonly ∧ o.mode = TxnMode.readonly)) := by
  obtain ⟨hinv, hmodes⟩ := schedInv_reachable h
  constructor
  · refine List.Pairwise.imp_of_mem ?_ hinv
    intro a b ha hb hab hsa hsb hov
    rcases hab hsb with hfalse | ⟨hbm, ham⟩
    · rw [scopesOverlap_comm] at hov
      rw [hov] at hfalse
      cases hfalse
    · exact ⟨mode_eq_readonly ham (hmodes a ha), mode_eq_readonly hbm (hmodes b hb)⟩
  · intro done e hcs hevc hovc o ho
    rcases canStart_compat hcs o ho with hfalse | ⟨hem, hom⟩
    · exact Or.inl hfalse
    · exact Or.inr ⟨mode_eq_readonly hem hevc, mode_eq_readonly hom (hovc o ho)⟩

/-- Witness for `C4_scheduler_scope_overlap`: two read-write transactions
with overlapping scope, added in order — a concrete reachable queue. -/
theorem C4_scheduler_scope_overlap_witness :
    (addTransaction (addTransaction [] 1 ["s"] TxnMode.readwrite) 2 ["s"]
        TxnMode.readwrite).Pairwise
      (fun a b => a.started = true → b.started = true →
        scopesOverlap a.scope b.scope = true →
        a.mode = TxnMode.readonly ∧ b.mode = TxnMode.readonly) :=
  (C4_scheduler_scope_overlap _
    (SchedReachable.add _ 2 ["s"] TxnMode.readwrite (by decide)
      (SchedReachable.add _ 1 ["s"] TxnMode.readwrite (by decide)
        SchedReachable.nil))).1

/-! ## C8 — unique-direction index cursor semantics -/

theorem lexCompareNat_trichotomy (a b : List Nat) :
    lexCompareNat a b = -1 ∨ lexCompareNat a b = 0 ∨ lexCompareNat a b = 1 := by
  induction a generalizing b with
  | nil => cases b <;> simp [lexCompareNat]
  | cons x xs ih =>
    cases b with
    | nil => simp [lexCompareNat]
    | cons y ys =>
      by_cases hxy : x < y
      · simp [lexCompareNat, hxy]
      · by_cases hyx : y < x
        · simp [lexCompareNat, hxy, hyx]
        · simpa [lexCompareNat, hxy, hyx] using ih ys

theorem lexCompareNat_eq_zero_iff (a b : List Nat) :
    lexCompareNat a b = 0 ↔ a = b := by
  induction a generalizing b with
  | nil => cases b <;> simp [lexCompareNat]
  | cons x xs ih =>
    cases b with
    | nil => simp [lexCompareNat]
    | cons y ys =>
      by_cases hxy : x < y
      · simp [lexCompareNat, hxy]
        omega
      · by_cases hyx : y < x
        · simp [lexCompareNat, hxy, hyx]
          omega
        · have hxyeq : x = y := by omega
          simp [lexCompareNat, hxy, hyx, hxyeq, ih ys]

theorem lexCompareNat_swap (a b : List Nat) :
    lexCompareNat b a = -lexCompareNat a b := by
  induction a generalizing b with
  | nil => cases b <;> simp [lexCompareNat]
  | cons x xs ih =>
    cases b with
    | nil => simp [lexCompareNat]
    | cons y ys =>
      by_cases hxy : x < y
      · have : ¬(y < x) := by omega
        simp [lexCompareNat, hxy, this]
      · by_cases hyx : y < x
        · simp [lexCompareNat, hxy, hyx]
        · simpa [lexCompareNat, hxy, hyx] using ih ys

theorem lexCompareNat_trans_neg {a : List Nat} :
    ∀ {b c : List Nat}, lexCompareNat a b = -1 → lexCompareNat b c = -1 →
      lexCompareNat a c = -1 := by
  induction a with
  | nil =>
    intro b c hab hbc
    cases b with
    | nil => simp [lexCompareNat] at hab
    | cons y ys =>
      cases c with
      | nil => simp [lexCompareNat] at hbc
      | cons z zs => simp [lexCompareNat]
  | cons x xs ih =>
    intro b c hab hbc
    cases b with
    | nil => simp [lexCompareNat] at hab
    | cons y ys =>
      cases c with
      | nil => simp [lexCompareNat] at hbc
      | cons z zs =>
        simp only [lexCompareNat] at hab hbc ⊢
        rcases Nat.lt_trichotomy x y with hxy | hxy | hxy
        · rcases Nat.lt_trichotomy y z with hyz | hyz | hyz
          · rw [if_pos (Nat.lt_trans hxy hyz)]
          · subst hyz
            rw [if_pos hxy]
          · rw [if_neg (by omega), if_pos hyz] at hbc
            exact absurd hbc (by decide)
        · subst hxy
          rcases Nat.lt_trichotomy x z with hxz | hxz | hxz
          · rw [if_pos hxz]
          · subst hxz
            rw [if_neg (by omega), if_neg (by omega)] at hab hbc ⊢
            exact ih hab hbc
          · rw [if_neg (by omega), if_pos hxz] at hbc
            exact absurd hbc (by decide)
        · rw [if_neg (by omega), if_pos hxy] at hab
          exact absurd hab (by decide)

theorem lexCompareNat_trans_pos {a b c : List Nat}
    (hab : lexCompareNat a b = 1) (hbc : lexCompareNat b c = 1) :
    lexCompareNat a c = 1 := by
  have h1 : lexCompareNat b a = -1 := by rw [lexCompareNat_swap, hab]
  have h2 : lexCompareNat c b = -1 := by rw [lexCompareNat_swap, hbc]
  have := lexCompareNat_trans_neg h2 h1
  rw [lexCompareNat_swap, this]
  rfl

theorem lexCompareNat_self_ne_one (a : List Nat) (c : Int) (hc : c = 1 ∨ c = -1) :
    ¬(lexCompareNat a a = c) := by
  rw [lexCompareNat_self]
  rcases hc with rfl | rfl <;> omega

/-- With no position every entry qualifies. -/
theorem entryPasses_none (dir : Direction) (e : IndexEntry) :
    entryPasses dir none e = true := rfl

/-- In a unique direction, the skip test keeps exactly the entries whose
index key is strictly beyond the position key in the direction order
(`c = 1` forward, `c = -1` reverse). -/
theorem entryPasses_unique (dir : Direction) (c : Int)
    (hdir : (dir = Direction.nextunique ∧ c = 1) ∨ (dir = Direction.prevunique ∧ c = -1))
    (p osp : Bytes) (e : IndexEntry) :
    entryPasses dir (some (p, osp)) e = true ↔ lexCompareNat e.indexKey p = c := by
  rcases hdir with ⟨rfl, rfl⟩ | ⟨rfl, rfl⟩ <;>
    rcases lexCompareNat_trichotomy e.indexKey p with h | h | h <;>
      simp [entryPasses, Direction.isUnique, Direction.isReverse, h]

/-- Iterating a unique-direction index cursor over entries sorted in the
backend's direction order (index key strictly monotone in the direction,
primary key ascending within one index key) visits: (a) strictly
direction-monotone index keys, all (a') beyond the current position; (b)
only entries of the list, each carrying the least primary key among the
entries with its index key; and (c) one visit for every index key present
beyond the position. -/
theorem cursorVisits_unique_spec (dir : Direction) (c : Int)
    (hdir : (dir = Direction.nextunique ∧ c = 1) ∨ (dir = Direction.prevunique ∧ c = -1)) :
    ∀ (fuel : Nat) (E : List IndexEntry),
      E.Pairwise (fun a b => lexCompareNat b.indexKey a.indexKey = c ∨
        (a.indexKey = b.indexKey ∧ lexCompareNat a.primaryKey b.primaryKey = -1)) →
      ∀ (pos : Option (Bytes × Bytes)),
        (E.filter (entryPasses dir pos)).length < fuel →
        (cursorVisits fuel dir E pos).Pairwise (fun v w => lexCompareNat w.1 v.1 = c) ∧
        (∀ v ∈ cursorVisits fuel dir E pos, ∀ p osp, pos = some (p, osp) →
          lexCompareNat v.1 p = c) ∧
        (∀ v ∈ cursorVisits fuel dir E pos,
          (∃ e ∈ E, e.indexKey = v.1 ∧ e.primaryKey = v.2) ∧
          (∀ e ∈ E, e.indexKey = v.1 →
            v.2 = e.primaryKey ∨ lexCompareNat v.2 e.primaryKey = -1)) ∧
        (∀ e ∈ E, entryPasses dir pos e = true →
          ∃ v ∈ cursorVisits fuel dir E pos, v.1 = e.indexKey) := by
  have hc : c = 1 ∨ c = -1 := by rcases hdir with ⟨_, rfl⟩ | ⟨_, rfl⟩ <;> simp
  intro fuel
  induction fuel with
  | zero =>
    intro E hs pos hfuel
    exact absurd hfuel (Nat.not_lt_zero _)
  | succ fuel ih =>
    intro E hs pos hfuel
    cases hstep : cursorStep dir E pos with
    | none =>
      have hV : cursorVisits (fuel + 1) dir E pos = [] := by
        simp [cursorVisits, hstep]
      rw [hV]
      refine ⟨List.Pairwise.nil, by simp, by simp, ?_⟩
      intro e he hpass
      have := List.find?_eq_none.mp hstep e he
      exact absurd hpass this
    | some e0 =>
      have hV : cursorVisits (fuel + 1) dir E pos =
          (e0.indexKey, e0.primaryKey) ::
            cursorVisits fuel dir E (some (e0.indexKey, e0.primaryKey)) := by
        simp [cursorVisits, hstep]
      -- decompose the find?
      obtain ⟨hpass0, as, bs, hE, has⟩ := List.find?_eq_some.mp hstep
      have has' : ∀ a ∈ as, entryPasses dir pos a = false := by
        intro a ha
        have := has a ha
        simpa using this
      -- the found entry is in the list
      have he0E : e0 ∈ E := by
        rw [hE]
        exact List.mem_append.mpr (Or.inr (List.mem_cons_self _ _))
      -- entries of the tail come after e0 in the sort order
      have hbs : ∀ b ∈ bs, lexCompareNat b.indexKey e0.indexKey = c ∨
          (e0.indexKey = b.indexKey ∧ lexCompareNat e0.primaryKey b.primaryKey = -1) := by
        have hs' := hs
        rw [hE] at hs'
        have h2 := (List.pairwise_append.mp hs').2.1
        exact (List.pairwise_cons.mp h2).1
      -- membership in E splits along the decomposition
      have hmem : ∀ e ∈ E, e ∈ as ∨ e = e0 ∨ e ∈ bs := by
        intro e he
        rw [hE] at he
        rcases List.mem_append.mp he with h | h
        · exact Or.inl h
        · rcases List.mem_cons.mp h with h | h
          · exact Or.inr (Or.inl h)
          · exact Or.inr (Or.inr h)
      -- no entry of `as` shares e0's index key (it would pass the skip test)
      have hasik : ∀ a ∈ as, a.indexKey ≠ e0.indexKey := by
        intro a ha haik
        cases pos with
        | none => simpa [entryPasses_none] using has' a ha
        | some pq =>
          have hp0 := (entryPasses_unique dir c hdir pq.1 pq.2 e0).mp (by simpa using hpass0)
          have hpa : entryPasses dir (some (pq.1, pq.2)) a = true :=
            (entryPasses_unique dir c hdir pq.1 pq.2 a).mpr (by rw [haik]; exact hp0)
          have := has' a ha
          rw [show (pq.1, pq.2) = pq from rfl] at hpa
          rw [hpa] at this
          cases this
      -- e0 has the least primary key among entries with its index key
      have hmin : ∀ e ∈ E, e.indexKey = e0.indexKey →
          e0.primaryKey = e.primaryKey ∨ lexCompareNat e0.primaryKey e.primaryKey = -1 := by
        intro e he heik
        rcases hmem e he with h | h | h
        · exact absurd heik (hasik e h)
        · subst h
          exact Or.inl rfl
        · rcases hbs e h with h2 | h2
          · rw [heik] at h2
            exact absurd h2 (lexCompareNat_self_ne_one _ c hc)
          · exact Or.inr h2.2
      -- every entry passing the new position passes the old one
      have hmono : ∀ x : IndexEntry,
          entryPasses dir (some (e0.indexKey, e0.primaryKey)) x = true →
          entryPasses dir pos x = true := by
        intro x hx
        have hx' := (entryPasses_unique dir c hdir e0.indexKey e0.primaryKey x).mp hx
        cases pos with
        | none => exact entryPasses_none dir x
        | some pq =>
          have hp0 := (entryPasses_unique dir c hdir pq.1 pq.2 e0).mp (by simpa using hpass0)
          refine (entryPasses_unique dir c hdir pq.1 pq.2 x).mpr ?_
          rcases hc with rfl | rfl
          · exact lexCompareNat_trans_pos hx' hp0
          · exact lexCompareNat_trans_neg hx' hp0
      -- fuel strictly decreases on the filtered view
      have hfuel' : (E.filter (entryPasses dir (some (e0.indexKey, e0.primaryKey)))).length
          < fuel := by
        have hself : entryPasses dir (some (e0.indexKey, e0.primaryKey)) e0 = false := by
          cases hpu : entryPasses dir (some (e0.indexKey, e0.primaryKey)) e0 with
          | false => rfl
          | true =>
            have := (entryPasses_unique dir c hdir e0.indexKey e0.primaryKey e0).mp hpu
            exact absurd this (lexCompareNat_self_ne_one _ c hc)
        have hasfail : ∀ a ∈ as, entryPasses dir (some (e0.indexKey, e0.primaryKey)) a = false := by
          intro a ha
          cases hpa : entryPasses dir (some (e0.indexKey, e0.primaryKey)) a with
          | false => rfl
          | true =>
            have := hmono a hpa
            rw [has' a ha] at this
            cases this
        have hfilterE : E.filter (entryPasses dir pos) =
            e0 :: bs.filter (entryPasses dir pos) := by
          rw [hE, List.filter_append]
          have : as.filter (entryPasses dir pos) = [] := by
            rw [List.filter_eq_nil_iff]
            intro a ha
            simp [has' a ha]
          rw [this, List.nil_append, List.filter_cons, if_pos (by simpa using hpass0)]
        have hfilterE' : E.filter (entryPasses dir (some (e0.indexKey, e0.primaryKey))) =
            bs.filter (entryPasses dir (some (e0.indexKey, e0.primaryKey))) := by
          rw [hE, List.filter_append]
          have h1 : as.filter (entryPasses dir (some (e0.indexKey, e0.primaryKey))) = [] := by
            rw [List.filter_eq_nil_iff]
            intro a ha
            simp [hasfail a ha]
          rw [h1, List.nil_append, List.filter_cons, if_neg (by simp [hself])]
        have hsub : List.Sublist
            (bs.filter (entryPasses dir (some (e0.indexKey, e0.primaryKey))))
            (bs.filter (entryPasses dir pos)) :=
          List.monotone_filter_right bs (fun x hx => hmono x hx)
        have hlen : (bs.filter (entryPasses dir pos)).length < fuel := by
          have h := hfuel
          rw [hfilterE] at h
          simp only [List.length_cons] at h
          omega
        rw [hfilterE']
        have hle := hsub.length_le
        omega
      obtain ⟨ihA, ihA', ihB, ihC⟩ := ih E hs (some (e0.indexKey, e0.primaryKey)) hfuel'
      rw [hV]
      refine ⟨?_, ?_, ?_, ?_⟩
      · rw [List.pairwise_cons]
        exact ⟨fun w hw => ihA' w hw e0.indexKey e0.primaryKey rfl, ihA⟩
      · intro v hv p osp hpos
        subst hpos
        rcases List.mem_cons.mp hv with rfl | hv
        · exact (entryPasses_unique dir c hdir p osp e0).mp (by simpa using hpass0)
        · have hvafter := ihA' v hv e0.indexKey e0.primaryKey rfl
          have hp0 := (entryPasses_unique dir c hdir p osp e0).mp (by simpa using hpass0)
          rcases hc with rfl | rfl
          · exact lexCompareNat_trans_pos hvafter hp0
          · exact lexCompareNat_trans_neg hvafter hp0
      · intro v hv
        rcases List.mem_cons.mp hv with rfl | hv
        · exact ⟨⟨e0, he0E, rfl, rfl⟩, fun e he heik => hmin e he heik⟩
        · exact ihB v hv
      · intro e he hpass
        by_cases heik : e.indexKey = e0.indexKey
        · exact ⟨(e0.indexKey, e0.primaryKey), List.mem_cons_self _ _, heik.symm⟩
        · have hpass' : entryPasses dir (some (e0.indexKey, e0.primaryKey)) e = true := by
            refine (entryPasses_unique dir c hdir e0.indexKey e0.primaryKey e).mpr ?_
            rcases hmem e he with h | h | h
            · rw [has' e h] at hpass
              cases hpass
            · exact absurd (congrArg IndexEntry.indexKey h) heik
            · rcases hbs e h with h2 | h2
              · exact h2
              · exact absurd h2.1.symm heik
          obtain ⟨v, hv, hvik⟩ := ihC e he hpass'
          exact ⟨v, List.mem_cons_of_mem _ hv, hvik⟩

/-- C8.  Over any set of index entries, delivered by the backend in its
direction order: a `nextunique` cursor visits strictly ascending index keys,
visits only entries carrying the least primary key for their index key, and
visits every distinct index key present — i.e. exactly one entry per
distinct index key, the one with the smallest primary key, in ascending
index-key order.  A `prevunique` cursor does the same in descending
index-key order, likewise delivering the smallest primary key per index
key. -/
theorem C8_unique_direction_cursor (entries entries2 : List IndexEntry)
    (hs : sortedNextOrder entries) (hs2 : sortedPrevUniqueOrder entries2) :
    ((cursorVisits (entries.length + 1) Direction.nextunique entries none).Pairwise
        (fun v w => lexCompareNat v.1 w.1 = -1) ∧
      (∀ v ∈ cursorVisits (entries.length + 1) Direction.nextunique entries none,
        (∃ e ∈ entries, e.indexKey = v.1 ∧ e.primaryKey = v.2) ∧
        (∀ e ∈ entries, e.indexKey = v.1 →
          v.2 = e.primaryKey ∨ lexCompareNat v.2 e.primaryKey = -1)) ∧
      (∀ e ∈ entries, ∃ v ∈ cursorVisits (entries.length + 1) Direction.nextunique entries none,
        v.1 = e.indexKey)) ∧
    ((cursorVisits (entries2.length + 1) Direction.prevunique entries2 none).Pairwise
        (fun v w => lexCompareNat v.1 w.1 = 1) ∧
      (∀ v ∈ cursorVisits (entries2.length + 1) Direction.prevunique entries2 none,
        (∃ e ∈ entries2, e.indexKey = v.1 ∧ e.primaryKey = v.2) ∧
        (∀ e ∈ entries2, e.indexKey = v.1 →
          v.2 = e.primaryKey ∨ lexCompareNat v.2 e.primaryKey = -1)) ∧
      (∀ e ∈ entries2,
        ∃ v ∈ cursorVisits (entries2.length + 1) Direction.prevunique entries2 none,
        v.1 = e.indexKey)) := by
  constructor
  · have hs' : entries.Pairwise (fun a b => lexCompareNat b.indexKey a.indexKey = 1 ∨
        (a.indexKey = b.indexKey ∧ lexCompareNat a.primaryKey b.primaryKey = -1)) := by
      refine hs.imp ?_
      intro a b h
      rcases h with h | h
      · left
        rw [lexCompareNat_swap, h]
        rfl
      · exact Or.inr h
    have hb : (entries.filter (entryPasses Direction.nextunique none)).length <
        entries.length + 1 :=
      Nat.lt_succ_of_le (List.length_filter_le _ _)
    obtain ⟨hA, hA', hB, hC⟩ := cursorVisits_unique_spec Direction.nextunique 1
      (Or.inl ⟨rfl, rfl⟩) (entries.length + 1) entries hs' none hb
    refine ⟨?_, hB, ?_⟩
    · refine hA.imp ?_
      intro v w h
      have hsw := lexCompareNat_swap v.1 w.1
      omega
    · intro e he
      exact hC e he (entryPasses_none _ _)
  · have hs2' : entries2.Pairwise (fun a b => lexCompareNat b.indexKey a.indexKey = -1 ∨
        (a.indexKey = b.indexKey ∧ lexCompareNat a.primaryKey b.primaryKey = -1)) := by
      refine hs2.imp ?_
      intro a b h
      rcases h with h | h
      · left
        rw [lexCompareNat_swap, h]
      · exact Or.inr h
    have hb : (entries2.filter (entryPasses Direction.prevunique none)).length <
        entries2.length + 1 :=
      Nat.lt_succ_of_le (List.length_filter_le _ _)
    obtain ⟨hA, hA', hB, hC⟩ := cursorVisits_unique_spec Direction.prevunique (-1)
      (Or.inr ⟨rfl, rfl⟩) (entries2.length + 1) entries2 hs2' none hb
    refine ⟨?_, hB, ?_⟩
    · refine hA.imp ?_
      intro v w h
      have hsw := lexCompareNat_swap v.1 w.1
      omega
    · intro e he
      exact hC e he (entryPasses_none _ _)

/-- Witness for `C8_unique_direction_cursor`: the multi-entry index scenario
with entries `(a,1), (a,2), (b,1), (c,2)` (keys as single bytes), in
ascending order for `nextunique` and in `(key DESC, primary ASC)` order for
`prevunique`. -/
theorem C8_unique_direction_cursor_witness :
    (cursorVisits 5 Direction.nextunique
        [⟨[97], [1]⟩, ⟨[97], [2]⟩, ⟨[98], [1]⟩, ⟨[99], [2]⟩] none).Pairwise
      (fun v w => lexCompareNat v.1 w.1 = -1) ∧
    (∀ e ∈ ([⟨[99], [2]⟩, ⟨[98], [1]⟩, ⟨[97], [1]⟩, ⟨[97], [2]⟩] : List IndexEntry),
      ∃ v ∈ cursorVisits 5 Direction.prevunique
        [⟨[99], [2]⟩, ⟨[98], [1]⟩, ⟨[97], [1]⟩, ⟨[97], [2]⟩] none,
      v.1 = e.indexKey) := by
  have h := C8_unique_direction_cursor
    [⟨[97], [1]⟩, ⟨[97], [2]⟩, ⟨[98], [1]⟩, ⟨[99], [2]⟩]
    [⟨[99], [2]⟩, ⟨[98], [1]⟩, ⟨[97], [1]⟩, ⟨[97], [2]⟩]
    (by unfold sortedNextOrder; decide) (by unfold sortedPrevUniqueOrder; decide)
  exact ⟨h.1.1, h.2.2.2⟩
